import Mathlib

/-!
# Verification of the watchman root registry and lifecycle core

Shallow embedding of `src/root/watchlist.cpp`, `src/root/init.cpp` and the
trigger persistence subsystem.  Strings are modelled as `List Char` (byte
strings), JSON values as an inductive type mirroring the jansson API used by
the code, and the registry as an association list from path to root.
-/

/-- Byte strings of the C code (`w_string`, `char *`) are `List Char`. -/
abbrev WStr := List Char

/-- Modelled from the spec: `is_slash` (helper not under `src/`) tests for a
path separator character. -/
def is_slash (c : Char) : Bool := c = '/' || c = '\\'

/-- Modelled from the spec: `w_string_startswith` (helper not under `src/`)
tests whether `pre` is a byte-wise prefix of `s`. -/
def w_string_startswith (s pre : WStr) : Bool := pre.isPrefixOf s

/-- The enclosing-root test of `w_find_enclosing_root`
(`src/root/watchlist.cpp:47-50`): the registered root path is a prefix of the
file name and either the lengths agree (exact match) or the byte of the file
name just past the root path is a slash. -/
def enclosing_root_match (name root_name : WStr) : Bool :=
  w_string_startswith name root_name &&
    (name.length == root_name.length || is_slash (name.getD root_name.length ' '))

/-- `w_find_enclosing_root` (`src/root/watchlist.cpp:38-82`): scan the watched
roots in order; on the first root whose path passes `enclosing_root_match`,
return the first `root_path.length` bytes of the file name as the prefix, and
the remainder after the separator as the relative path (`none` on an exact
match).  Returns `none` when no root matches. -/
def w_find_enclosing_root (roots : List WStr) (filename : WStr) :
    Option (WStr × Option WStr) :=
  match roots.find? (fun r => enclosing_root_match filename r) with
  | none => none
  | some r =>
      some (filename.take r.length,
        if r.length == filename.length then none
        else some (filename.drop (r.length + 1)))

/-- The specification's notion of a path-component-aligned enclosure: the file
equals the root, or continues it with a path separator immediately after. -/
def alignedEnclosure (r f : WStr) : Prop :=
  f = r ∨ (r <+: f ∧ is_slash (f.getD r.length ' ') = true)

instance (r f : WStr) : Decidable (alignedEnclosure r f) := by
  unfold alignedEnclosure; infer_instance

theorem enclosing_root_match_iff (f r : WStr) :
    enclosing_root_match f r = true ↔ alignedEnclosure r f := by
  unfold enclosing_root_match w_string_startswith alignedEnclosure
  rw [Bool.and_eq_true, Bool.or_eq_true, List.isPrefixOf_iff_prefix,
    beq_iff_eq]
  constructor
  · rintro ⟨hpre, hlen | hsl⟩
    · exact Or.inl (List.IsPrefix.eq_of_length hpre hlen.symm).symm
    · exact Or.inr ⟨hpre, hsl⟩
  · rintro (heq | ⟨hpre, hsl⟩)
    · rw [heq]
      exact ⟨List.prefix_refl r, Or.inl rfl⟩
    · exact ⟨hpre, Or.inr hsl⟩

/-- C1: `w_find_enclosing_root` reports a match exactly when some registered
root path is a path-component-aligned prefix of the queried file path, and on
a match it returns that root as the prefix together with the remainder of the
file path after the separator (`none` when the file path equals the root). -/
theorem w_find_enclosing_root_spec (roots : List WStr) (f : WStr) :
    ((w_find_enclosing_root roots f).isSome ↔ ∃ r ∈ roots, alignedEnclosure r f) ∧
    (∀ p rel, w_find_enclosing_root roots f = some (p, rel) →
      p ∈ roots ∧ alignedEnclosure p f ∧
      rel = if f = p then none else some (f.drop (p.length + 1))) := by
  unfold w_find_enclosing_root
  cases hfind : roots.find? (fun r => enclosing_root_match f r) with
  | none =>
      constructor
      · constructor
        · intro h
          exact Bool.noConfusion h
        · rintro ⟨r, hr, halign⟩
          have hnot := List.find?_eq_none.mp hfind r hr
          rw [enclosing_root_match_iff f r] at hnot
          exact absurd halign hnot
      · intro p rel h
        cases h
  | some r =>
      have hmem : r ∈ roots := List.mem_of_find?_eq_some hfind
      have hmatch : enclosing_root_match f r = true := List.find?_some hfind
      have halign : alignedEnclosure r f := (enclosing_root_match_iff f r).mp hmatch
      have hpre : r <+: f := by
        rcases halign with heq | ⟨hp, _⟩
        · rw [heq]
        · exact hp
      have htake : f.take r.length = r := (List.prefix_iff_eq_take.mp hpre).symm
      constructor
      · exact ⟨fun _ => ⟨r, hmem, halign⟩, fun _ => rfl⟩
      · intro p rel h
        rw [Option.some_inj] at h
        have hp : f.take r.length = p := congrArg Prod.fst h
        have hrel :
            (if r.length == f.length then none else some (f.drop (r.length + 1)))
              = rel := congrArg Prod.snd h
        rw [htake] at hp
        subst hp
        rw [← hrel]
        refine ⟨hmem, halign, ?_⟩
        by_cases heq : f = r
        · simp [heq]
        · have hne : (r.length == f.length) = false := by
            rw [beq_eq_false_iff_ne]
            intro hlen
            exact heq (List.IsPrefix.eq_of_length hpre hlen).symm
          simp [hne, heq]

/-- Witness for C1 at a concrete registry and file: root `/a/b` encloses
`/a/b/c` with relative path `c`. -/
theorem w_find_enclosing_root_spec_witness :
    w_find_enclosing_root [['/', 'a', '/', 'b']] ['/', 'a', '/', 'b', '/', 'c'] =
      some (['/', 'a', '/', 'b'], some ['c']) ∧
    (['/', 'a', '/', 'b'] ∈ [['/', 'a', '/', 'b']] ∧
      alignedEnclosure ['/', 'a', '/', 'b'] ['/', 'a', '/', 'b', '/', 'c'] ∧
      (some ['c'] : Option WStr) =
        if (['/', 'a', '/', 'b', '/', 'c'] : WStr) = ['/', 'a', '/', 'b'] then none
        else some ((['/', 'a', '/', 'b', '/', 'c'] : WStr).drop
          (['/', 'a', '/', 'b'].length + 1))) := by
  refine ⟨by decide, ?_⟩
  exact (w_find_enclosing_root_spec [['/', 'a', '/', 'b']]
    ['/', 'a', '/', 'b', '/', 'c']).2 ['/', 'a', '/', 'b'] (some ['c']) (by decide)

/-! ## C4: `remove_root_from_watched` -/

/-- A root object as the registry stores it: a process-unique object identity
(standing in for the C++ object address) together with its immutable path. -/
structure RootObj where
  oid : Nat
  root_path : WStr
deriving DecidableEq

/-- Registry lookup (`watched_roots` map `find`). -/
def registry_find (m : List (WStr × RootObj)) (p : WStr) : Option RootObj :=
  (m.find? (fun e => e.1 == p)).map Prod.snd

/-- Registry `erase` of the entry found under `p`. -/
def registry_erase (m : List (WStr × RootObj)) (p : WStr) : List (WStr × RootObj) :=
  m.eraseP (fun e => e.1 == p)

/-- `remove_root_from_watched` (`src/root/watchlist.cpp:14-29`): look up the
root's own path; if absent return `false`; if the stored object is the very
same root, erase the entry, release the registry's owning reference
(`w_root_delref_raw`, counted in the third component) and return `true`;
otherwise return `false` and leave the map alone. -/
def remove_root_from_watched (m : List (WStr × RootObj)) (root : RootObj) :
    Bool × List (WStr × RootObj) × Nat :=
  match registry_find m root.root_path with
  | none => (false, m, 0)
  | some stored =>
      if stored = root then (true, registry_erase m root.root_path, 1)
      else (false, m, 0)

/-- C4: `remove_root_from_watched` removes the entry and releases the owning
reference exactly when the entry stored under the root's own path is the
identical root object; otherwise it returns `false` and leaves the registry
unchanged, releasing nothing. -/
theorem remove_root_from_watched_spec (m : List (WStr × RootObj)) (root : RootObj) :
    ((remove_root_from_watched m root).1 = true ↔
        registry_find m root.root_path = some root) ∧
    ((remove_root_from_watched m root).1 = true →
        (remove_root_from_watched m root).2 =
          (registry_erase m root.root_path, 1)) ∧
    ((remove_root_from_watched m root).1 = false →
        (remove_root_from_watched m root).2 = (m, 0)) := by
  unfold remove_root_from_watched
  cases hfind : registry_find m root.root_path with
  | none =>
      refine ⟨⟨fun h => Bool.noConfusion h, fun h => ?_⟩, fun h => Bool.noConfusion h,
        fun _ => rfl⟩
      cases h
  | some stored =>
      by_cases hsame : stored = root
      · subst hsame
        simp
      · simp [hsame]

/-- Witness for C4: removing a root that is identical to the stored entry
succeeds and erases it. -/
theorem remove_root_from_watched_spec_witness :
    (remove_root_from_watched [(['/', 'r'], ⟨7, ['/', 'r']⟩)] ⟨7, ['/', 'r']⟩).1 = true ∧
    (remove_root_from_watched [(['/', 'r'], ⟨7, ['/', 'r']⟩)] ⟨7, ['/', 'r']⟩).2 =
      (registry_erase [(['/', 'r'], ⟨7, ['/', 'r']⟩)] ['/', 'r'], 1) := by
  have h := remove_root_from_watched_spec [(['/', 'r'], ⟨7, ['/', 'r']⟩)] ⟨7, ['/', 'r']⟩
  refine ⟨h.1.mpr (by decide), h.2.1 (h.1.mpr (by decide))⟩

/-! ## JSON model (jansson API as used by the source) -/

/-- JSON values as manipulated through the jansson API in the source. -/
inductive Json where
  | null : Json
  | bool : Bool → Json
  | int : Int → Json
  | str : WStr → Json
  | arr : List Json → Json
  | obj : List (WStr × Json) → Json

/-- Convert a Lean string literal to the byte-string type. -/
def wstr (s : String) : WStr := s.data

/-- `json_object_get`: key lookup; `NULL` (here `none`) on a missing key or a
non-object value. -/
def json_object_get : Json → WStr → Option Json
  | Json.obj m, k => (m.find? (fun e => e.1 == k)).map Prod.snd
  | _, _ => none

/-- `json_string_value` applied to the result of a lookup: `NULL` unless the
value exists and is a string. -/
def json_string_value : Option Json → Option WStr
  | some (Json.str s) => some s
  | _ => none

/-- The elements iterated by a `for (j = 0; j < json_array_size(x); j++)`
loop: `json_array_size` of `NULL` or of a non-array is `0`. -/
def json_array_elems : Option Json → List Json
  | some (Json.arr xs) => xs
  | _ => []

/-- `json_is_array`. -/
def json_is_array : Json → Bool
  | Json.arr _ => true
  | _ => false

/-- Association-list update used to model key assignment. -/
def set_assoc (m : List (WStr × Json)) (k : WStr) (v : Json) : List (WStr × Json) :=
  if m.any (fun e => e.1 == k) then
    m.map (fun e => if e.1 == k then (k, v) else e)
  else m ++ [(k, v)]

/-- `json_object_set_new`: set a key of an object (no-op on non-objects,
which the source never does). -/
def json_object_set (j : Json) (k : WStr) (v : Json) : Json :=
  match j with
  | Json.obj m => Json.obj (set_assoc m k v)
  | _ => j

/-! ## Trigger and persistence model (C2, C5, C6) -/

/-- The fields of `watchman_trigger_command` (`src/watchman_trigger.h`)
relevant to persistence: the trigger name and the full JSON definition,
stored verbatim. -/
structure TriggerCmd where
  triggername : WStr
  definition : Json

/-- Modelled from the spec: `w_build_trigger_from_def` (its implementation is
not under `src/`) validates the definition — requiring at least a string
`"name"` and an array `"command"` — and on success stores the name and the
definition verbatim; on failure it returns nothing and reports an error
message (the message itself is not modelled). -/
def w_build_trigger_from_def (tdef : Json) : Option TriggerCmd :=
  match json_string_value (json_object_get tdef (wstr "name")) with
  | none => none
  | some n =>
      match json_object_get tdef (wstr "command") with
      | some (Json.arr _) => some ⟨n, tdef⟩
      | _ => none

/-- A root as the persistence code sees it: its path, its trigger table
(name → command), whether it has been canceled, and its reference count. -/
structure LoadRoot where
  root_path : WStr
  triggers : List (WStr × TriggerCmd)
  cancelled : Bool
  refcnt : Int

/-- `w_root_trigger_list_to_json` (`src/root/watchlist.cpp:157-170`): the
array of each trigger's stored definition, in table order. -/
def w_root_trigger_list_to_json (r : LoadRoot) : Json :=
  Json.arr (r.triggers.map (fun e => e.2.definition))

/-- `w_root_save_state` (`src/root/watchlist.cpp:121-155`): set key
`"watched"` of the state object to an array of `{path, triggers}` objects,
one per registry entry. -/
def w_root_save_state (reg : List LoadRoot) (state : Json) : Json :=
  json_object_set state (wstr "watched")
    (Json.arr (reg.map (fun r =>
      Json.obj [(wstr "path", Json.str r.root_path),
                (wstr "triggers", w_root_trigger_list_to_json r)])))

/-- `map[cmd->triggername] = std::move(cmd)`: insert-or-replace in the
trigger table. -/
def trigger_map_set (m : List (WStr × TriggerCmd)) (cmd : TriggerCmd) :
    List (WStr × TriggerCmd) :=
  if m.any (fun e => e.1 == cmd.triggername) then
    m.map (fun e => if e.1 == cmd.triggername then (cmd.triggername, cmd) else e)
  else m ++ [(cmd.triggername, cmd)]

/-- One iteration of the trigger re-creation loop of `w_root_load_state`
(`src/root/watchlist.cpp:206-228`): a definition carrying a legacy `"rules"`
key is skipped; a definition the builder rejects is logged and skipped;
otherwise the built command is installed under its name. -/
def load_trigger_step (m : List (WStr × TriggerCmd)) (tobj : Json) :
    List (WStr × TriggerCmd) :=
  match json_object_get tobj (wstr "rules") with
  | some _ => m
  | none =>
      match w_build_trigger_from_def tobj with
      | none => m
      | some cmd => trigger_map_set m cmd

/-- The whole trigger re-creation loop over a definitions array. -/
def load_triggers (tdefs : List Json) (m : List (WStr × TriggerCmd)) :
    List (WStr × TriggerCmd) :=
  tdefs.foldl load_trigger_step m

/-- Processing of one `"watched"` entry for an already-registered root:
`root_resolve` borrows a reference, the trigger loop runs under the trigger
table's write lock, and `w_root_delref` releases the borrowed reference at
the end of the entry (`src/root/watchlist.cpp:196-243`). -/
def entry_existing (tdefs : List Json) (r : LoadRoot) : LoadRoot :=
  let r1 := { r with refcnt := r.refcnt + 1 }
  let r2 := { r1 with triggers := load_triggers tdefs r1.triggers }
  { r2 with refcnt := r2.refcnt - 1 }

/-- Processing of one `"watched"` entry whose root is newly created:
modelled from the spec for the parts outside `src/` — `root_resolve` creates
the root (refcount 1) and the registry takes its owning reference; then the
trigger loop runs; then, because `created` is set, `root_start` is attempted
and on failure the freshly created root is canceled (`w_root_cancel`); the
borrowed reference is released at the end of the entry. -/
def entry_created (startOk : Bool) (tdefs : List Json) (path : WStr) : LoadRoot :=
  let r0 : LoadRoot :=
    { root_path := path, triggers := [], cancelled := false, refcnt := 1 }
  let r1 := { r0 with refcnt := r0.refcnt + 1 }
  let r2 := { r1 with triggers := load_triggers tdefs r1.triggers }
  let r3 := if startOk then r2 else { r2 with cancelled := true }
  { r3 with refcnt := r3.refcnt - 1 }

/-- Whether the registry already holds a root at path `p`. -/
def contains_path (reg : List LoadRoot) (p : WStr) : Bool :=
  reg.any (fun r => r.root_path == p)

/-- Apply `f` to the first root whose path is `p`. -/
def update_by_path (p : WStr) (f : LoadRoot → LoadRoot) :
    List LoadRoot → List LoadRoot
  | [] => []
  | r :: rs => if r.root_path == p then f r :: rs else r :: update_by_path p f rs

/-- One iteration of the `"watched"` loop of `w_root_load_state`
(`src/root/watchlist.cpp:185-244`): read the entry's `"path"` (a `NULL` or
non-string path makes `root_resolve` fail and the loop continue with the
next entry), resolve or create the root, and process the entry's triggers;
`startOk` tells, per path, whether `root_start` would succeed. -/
def process_entry (startOk : WStr → Bool) (reg : List LoadRoot) (obj : Json) :
    List LoadRoot :=
  match json_string_value (json_object_get obj (wstr "path")) with
  | none => reg
  | some filename =>
      if contains_path reg filename then
        update_by_path filename
          (entry_existing (json_array_elems (json_object_get obj (wstr "triggers")))) reg
      else
        reg ++ [entry_created (startOk filename)
          (json_array_elems (json_object_get obj (wstr "triggers"))) filename]

/-- `w_root_load_state` (`src/root/watchlist.cpp:172-247`): succeed trivially
when the state has no `"watched"` key, fail when it is not an array, and
otherwise process every entry, returning `true`. -/
def w_root_load_state (startOk : WStr → Bool) (state : Json)
    (reg : List LoadRoot) : Bool × List LoadRoot :=
  match json_object_get state (wstr "watched") with
  | none => (true, reg)
  | some watched =>
      if json_is_array watched then
        (true, (json_array_elems (some watched)).foldl (process_entry startOk) reg)
      else (false, reg)

/-- The trigger definition of the round-trip scenario:
`{"name":"t","command":["echo","hi"]}`. -/
def c2_def : Json :=
  Json.obj [(wstr "name", Json.str (wstr "t")),
            (wstr "command", Json.arr [Json.str (wstr "echo"), Json.str (wstr "hi")])]

/-- A registry holding the single root `/r` with the single trigger `t`. -/
def c2_root : LoadRoot :=
  { root_path := wstr "/r",
    triggers := [(wstr "t", ⟨wstr "t", c2_def⟩)],
    cancelled := false,
    refcnt := 1 }

/-- C2: saving a registry holding one root `/r` with one trigger `t` defined
by `{"name":"t","command":["echo","hi"]}` and loading the resulting document
into an empty registry succeeds and yields exactly one root at `/r` with
exactly one trigger named `t` whose stored definition is identical to the
original. -/
theorem save_load_round_trip :
    w_root_load_state (fun _ => true)
        (w_root_save_state [c2_root] (Json.obj [])) [] =
      (true, [{ root_path := wstr "/r",
                triggers := [(wstr "t", ⟨wstr "t", c2_def⟩)],
                cancelled := false,
                refcnt := 1 }]) := by
  rfl

theorem entry_existing_root_path (tdefs : List Json) (r : LoadRoot) :
    (entry_existing tdefs r).root_path = r.root_path := rfl

theorem entry_created_root_path (b : Bool) (tdefs : List Json) (p : WStr) :
    (entry_created b tdefs p).root_path = p := by
  cases b <;> rfl

theorem entry_existing_refcnt (tdefs : List Json) (r : LoadRoot) :
    (entry_existing tdefs r).refcnt = r.refcnt := by
  show r.refcnt + 1 - 1 = r.refcnt
  omega

theorem entry_created_refcnt (b : Bool) (tdefs : List Json) (p : WStr) :
    (entry_created b tdefs p).refcnt = 1 := by
  cases b <;> rfl

theorem contains_path_iff (reg : List LoadRoot) (p : WStr) :
    contains_path reg p = true ↔ p ∈ reg.map LoadRoot.root_path := by
  unfold contains_path
  rw [List.any_eq_true]
  constructor
  · rintro ⟨r, hr, hb⟩
    exact List.mem_map.mpr ⟨r, hr, beq_iff_eq.mp hb⟩
  · rintro hmem
    obtain ⟨r, hr, hp⟩ := List.mem_map.mp hmem
    exact ⟨r, hr, beq_iff_eq.mpr hp⟩

theorem update_by_path_map_path (p : WStr) (f : LoadRoot → LoadRoot)
    (hf : ∀ r, (f r).root_path = r.root_path) :
    ∀ reg : List LoadRoot,
      (update_by_path p f reg).map LoadRoot.root_path = reg.map LoadRoot.root_path := by
  intro reg
  induction reg with
  | nil => rfl
  | cons a rs ih =>
      unfold update_by_path
      by_cases h : (a.root_path == p) = true
      · simp [h, hf]
      · simp [h, ih]

theorem update_by_path_forall (p : WStr) (f : LoadRoot → LoadRoot)
    (P : LoadRoot → Prop) (hf : ∀ r, P r → P (f r)) :
    ∀ reg : List LoadRoot, (∀ r ∈ reg, P r) →
      ∀ r ∈ update_by_path p f reg, P r := by
  intro reg
  induction reg with
  | nil =>
      intro _ r hr
      cases hr
  | cons a rs ih =>
      intro hP r hr
      unfold update_by_path at hr
      by_cases h : (a.root_path == p) = true
      · rw [if_pos h] at hr
        rcases List.mem_cons.mp hr with rfl | hmem
        · exact hf a (hP a (List.mem_cons_self a rs))
        · exact hP r (List.mem_cons_of_mem a hmem)
      · rw [if_neg h] at hr
        rcases List.mem_cons.mp hr with rfl | hmem
        · exact hP r (List.mem_cons_self r rs)
        · exact ih (fun x hx => hP x (List.mem_cons_of_mem a hx)) r hmem

theorem process_entry_eq_none (startOk : WStr → Bool) (reg : List LoadRoot)
    (obj : Json)
    (h : json_string_value (json_object_get obj (wstr "path")) = none) :
    process_entry startOk reg obj = reg := by
  unfold process_entry
  rw [h]

theorem process_entry_eq_some (startOk : WStr → Bool) (reg : List LoadRoot)
    (obj : Json) (filename : WStr)
    (h : json_string_value (json_object_get obj (wstr "path")) = some filename) :
    process_entry startOk reg obj =
      if contains_path reg filename then
        update_by_path filename
          (entry_existing (json_array_elems (json_object_get obj (wstr "triggers")))) reg
      else
        reg ++ [entry_created (startOk filename)
          (json_array_elems (json_object_get obj (wstr "triggers"))) filename] := by
  unfold process_entry
  rw [h]

theorem process_entry_adds_path (startOk : WStr → Bool) (reg : List LoadRoot)
    (obj : Json) (p : WStr)
    (hpath : json_string_value (json_object_get obj (wstr "path")) = some p) :
    p ∈ (process_entry startOk reg obj).map LoadRoot.root_path := by
  rw [process_entry_eq_some startOk reg obj p hpath]
  by_cases hc : contains_path reg p = true
  · rw [if_pos hc, update_by_path_map_path p _ (fun r => entry_existing_root_path _ r)]
    exact (contains_path_iff reg p).mp hc
  · rw [if_neg hc, List.map_append]
    exact List.mem_append.mpr (Or.inr (by simp [entry_created_root_path]))

theorem process_entry_keeps_path (startOk : WStr → Bool) (reg : List LoadRoot)
    (obj : Json) (q : WStr) (hq : q ∈ reg.map LoadRoot.root_path) :
    q ∈ (process_entry startOk reg obj).map LoadRoot.root_path := by
  cases hpath : json_string_value (json_object_get obj (wstr "path")) with
  | none =>
      rw [process_entry_eq_none startOk reg obj hpath]
      exact hq
  | some filename =>
      rw [process_entry_eq_some startOk reg obj filename hpath]
      by_cases hc : contains_path reg filename = true
      · rw [if_pos hc,
          update_by_path_map_path filename _ (fun r => entry_existing_root_path _ r)]
        exact hq
      · rw [if_neg hc, List.map_append]
        exact List.mem_append.mpr (Or.inl hq)

theorem process_entry_refcnt (startOk : WStr → Bool) (reg : List LoadRoot)
    (obj : Json) (h : ∀ r ∈ reg, r.refcnt = 1) :
    ∀ r ∈ process_entry startOk reg obj, r.refcnt = 1 := by
  cases hpath : json_string_value (json_object_get obj (wstr "path")) with
  | none =>
      rw [process_entry_eq_none startOk reg obj hpath]
      exact h
  | some filename =>
      rw [process_entry_eq_some startOk reg obj filename hpath]
      by_cases hc : contains_path reg filename = true
      · rw [if_pos hc]
        exact update_by_path_forall filename _ _
          (fun r hr => by rw [entry_existing_refcnt]; exact hr) reg h
      · rw [if_neg hc]
        intro r hr
        rcases List.mem_append.mp hr with hmem | hmem
        · exact h r hmem
        · rw [List.mem_singleton.mp hmem]
          exact entry_created_refcnt _ _ _

theorem load_fold_refcnt (startOk : WStr → Bool) (ws : List Json) :
    ∀ reg : List LoadRoot, (∀ r ∈ reg, r.refcnt = 1) →
      ∀ r ∈ ws.foldl (process_entry startOk) reg, r.refcnt = 1 := by
  induction ws with
  | nil =>
      intro reg h
      exact h
  | cons a rest ih =>
      intro reg h
      exact ih _ (process_entry_refcnt startOk reg a h)

theorem load_fold_keeps_path (startOk : WStr → Bool) (ws : List Json) :
    ∀ (reg : List LoadRoot) (q : WStr), q ∈ reg.map LoadRoot.root_path →
      q ∈ (ws.foldl (process_entry startOk) reg).map LoadRoot.root_path := by
  induction ws with
  | nil =>
      intro reg q hq
      exact hq
  | cons a rest ih =>
      intro reg q hq
      exact ih _ q (process_entry_keeps_path startOk reg a q hq)

theorem load_state_watched_arr (startOk : WStr → Bool) (ws : List Json)
    (reg : List LoadRoot) :
    w_root_load_state startOk (Json.obj [(wstr "watched", Json.arr ws)]) reg =
      (true, ws.foldl (process_entry startOk) reg) := rfl

/-- C5: during `w_root_load_state`, a trigger definition carrying a `"rules"`
key is skipped: the trigger loop leaves the table untouched for it (no
trigger registered, no error produced — the step is total), processing of the
remaining definitions continues unchanged, and the enclosing root is still
resolved or created, so its creation is not aborted. -/
theorem load_state_skips_legacy_rules (tobj : Json)
    (hrules : (json_object_get tobj (wstr "rules")).isSome = true) :
    (∀ m, load_trigger_step m tobj = m) ∧
    (∀ rest m, load_triggers (tobj :: rest) m = load_triggers rest m) ∧
    (∀ startOk reg obj p,
        json_string_value (json_object_get obj (wstr "path")) = some p →
        p ∈ (process_entry startOk reg obj).map LoadRoot.root_path) := by
  have hstep : ∀ m, load_trigger_step m tobj = m := by
    intro m
    unfold load_trigger_step
    cases hg : json_object_get tobj (wstr "rules") with
    | none =>
        rw [hg] at hrules
        exact absurd hrules (by decide)
    | some v => rfl
  refine ⟨hstep, fun rest m => ?_, fun startOk reg obj p h =>
    process_entry_adds_path startOk reg obj p h⟩
  unfold load_triggers
  rw [List.foldl_cons, hstep]

/-- Witness for C5: a legacy definition `{"rules": []}` leaves the trigger
table untouched and the rest of the list is processed as if it were absent. -/
theorem load_state_skips_legacy_rules_witness :
    load_trigger_step [] (Json.obj [(wstr "rules", Json.arr [])]) = [] ∧
    load_triggers
        [Json.obj [(wstr "rules", Json.arr [])],
         Json.obj [(wstr "name", Json.str (wstr "u")), (wstr "command", Json.arr [])]]
        [] =
      load_triggers
        [Json.obj [(wstr "name", Json.str (wstr "u")), (wstr "command", Json.arr [])]]
        [] := by
  have h := load_state_skips_legacy_rules (Json.obj [(wstr "rules", Json.arr [])])
    (by rfl)
  exact ⟨h.1 [],
    h.2.1 [Json.obj [(wstr "name", Json.str (wstr "u")), (wstr "command", Json.arr [])]] []⟩

theorem load_fold_entry_path (startOk : WStr → Bool) (ws : List Json) :
    ∀ (reg : List LoadRoot) (obj : Json) (p : WStr), obj ∈ ws →
      json_string_value (json_object_get obj (wstr "path")) = some p →
      p ∈ (ws.foldl (process_entry startOk) reg).map LoadRoot.root_path := by
  induction ws with
  | nil =>
      intro reg obj p hobj _
      cases hobj
  | cons a rest ih =>
      intro reg obj p hobj hpath
      rw [List.foldl_cons]
      rcases List.mem_cons.mp hobj with rfl | hmem
      · exact load_fold_keeps_path startOk rest _ p
          (process_entry_adds_path startOk reg obj p hpath)
      · exact ih _ obj p hmem hpath

/-- C6: `w_root_load_state` never aborts the whole load on a per-entry
failure: a trigger definition the builder rejects is skipped while the
remaining definitions of the same root are still processed; loading a
`"watched"` array always reports success and every entry with a readable
path ends up watched, whatever failures other entries encountered; a root
newly created during the load whose start fails is canceled but still
registered; and every entry's borrowed root reference is released after the
entry is processed, leaving all reference counts as they were. -/
theorem load_state_continues_past_failures :
    (∀ tobj rest m, w_build_trigger_from_def tobj = none →
        load_triggers (tobj :: rest) m = load_triggers rest m) ∧
    (∀ (startOk : WStr → Bool) (ws : List Json) (reg : List LoadRoot),
        (∀ r ∈ reg, r.refcnt = 1) →
        (w_root_load_state startOk (Json.obj [(wstr "watched", Json.arr ws)]) reg).1
            = true ∧
        ∀ r ∈ (w_root_load_state startOk
            (Json.obj [(wstr "watched", Json.arr ws)]) reg).2, r.refcnt = 1) ∧
    (∀ (startOk : WStr → Bool) (ws : List Json) (reg : List LoadRoot)
        (obj : Json) (p : WStr), obj ∈ ws →
        json_string_value (json_object_get obj (wstr "path")) = some p →
        p ∈ ((w_root_load_state startOk
          (Json.obj [(wstr "watched", Json.arr ws)]) reg).2.map LoadRoot.root_path)) ∧
    (∀ (startOk : WStr → Bool) (reg : List LoadRoot) (obj : Json) (p : WStr),
        json_string_value (json_object_get obj (wstr "path")) = some p →
        contains_path reg p = false → startOk p = false →
        ∃ r ∈ process_entry startOk reg obj,
          r.root_path = p ∧ r.cancelled = true) := by
  refine ⟨?_, ?_, ?_, ?_⟩
  · intro tobj rest m hfail
    have hstep : load_trigger_step m tobj = m := by
      unfold load_trigger_step
      cases json_object_get tobj (wstr "rules") with
      | some v => rfl
      | none => rw [hfail]
    unfold load_triggers
    rw [List.foldl_cons, hstep]
  · intro startOk ws reg h
    rw [load_state_watched_arr]
    exact ⟨rfl, load_fold_refcnt startOk ws reg h⟩
  · intro startOk ws reg obj p hobj hpath
    rw [load_state_watched_arr]
    exact load_fold_entry_path startOk ws reg obj p hobj hpath
  · intro startOk reg obj p hpath habs hfail
    rw [process_entry_eq_some startOk reg obj p hpath, if_neg (by rw [habs]; decide)]
    refine ⟨entry_created (startOk p)
      (json_array_elems (json_object_get obj (wstr "triggers"))) p,
      List.mem_append.mpr (Or.inr (List.mem_singleton.mpr rfl)), ?_, ?_⟩
    · exact entry_created_root_path _ _ _
    · rw [hfail]
      rfl

/-- Witness for C6: an unbuildable definition `{}` is skipped with the rest
still processed, and a freshly created root whose start fails ends up
canceled but registered. -/
theorem load_state_continues_past_failures_witness :
    load_triggers [Json.obj [], Json.obj [(wstr "name", Json.str (wstr "v")),
        (wstr "command", Json.arr [])]] [] =
      load_triggers [Json.obj [(wstr "name", Json.str (wstr "v")),
        (wstr "command", Json.arr [])]] [] ∧
    (∃ r ∈ process_entry (fun _ => false) []
        (Json.obj [(wstr "path", Json.str (wstr "/q"))]),
      r.root_path = wstr "/q" ∧ r.cancelled = true) := by
  have h := load_state_continues_past_failures
  refine ⟨h.1 (Json.obj []) _ [] (by rfl), ?_⟩
  exact h.2.2.2 (fun _ => false) [] (Json.obj [(wstr "path", Json.str (wstr "/q"))])
    (wstr "/q") (by rfl) (by rfl) rfl

/-! ## C3: reference counting (`src/root/init.cpp:164-201`) -/

/-- The two operations of the claim. -/
inductive RCOp where
  | addref : RCOp
  | delref : RCOp
deriving DecidableEq

/-- The state the refcount protocol acts on: the root's count, whether the
destructor has run, how many times it ran, and the process-wide `live_roots`
counter which the destructor decrements (`src/root/init.cpp:200`). -/
structure RCState where
  refcnt : Int
  destroyed : Bool
  destructions : Nat
  live : Int
deriving DecidableEq

/-- One step: `w_root_addref` is `++refcnt`; `w_root_delref_raw` is
`--refcnt`, and when the count reaches zero `delete root` runs the
destructor, which decrements `live_roots` (`src/root/init.cpp:164-181,
186-201`). -/
def rcStep (s : RCState) : RCOp → RCState
  | RCOp.addref => { s with refcnt := s.refcnt + 1 }
  | RCOp.delref =>
      if s.refcnt - 1 = 0 then
        { refcnt := 0, destroyed := true, destructions := s.destructions + 1,
          live := s.live - 1 }
      else { s with refcnt := s.refcnt - 1 }

/-- Run a sequence of refcount operations. -/
def rcRun (s : RCState) (ops : List RCOp) : RCState := ops.foldl rcStep s

/-- Number of `addref`s in a sequence. -/
def rcAdds (ops : List RCOp) : Nat := ops.count RCOp.addref

/-- Number of `delref`s in a sequence. -/
def rcDels (ops : List RCOp) : Nat := ops.count RCOp.delref

theorem rcAdds_cons_addref (ops : List RCOp) :
    rcAdds (RCOp.addref :: ops) = rcAdds ops + 1 := by
  unfold rcAdds
  rw [List.count_cons_self]

theorem rcAdds_cons_delref (ops : List RCOp) :
    rcAdds (RCOp.delref :: ops) = rcAdds ops := by
  unfold rcAdds
  rw [List.count_cons_of_ne (by decide)]

theorem rcDels_cons_addref (ops : List RCOp) :
    rcDels (RCOp.addref :: ops) = rcDels ops := by
  unfold rcDels
  rw [List.count_cons_of_ne (by decide)]

theorem rcDels_cons_delref (ops : List RCOp) :
    rcDels (RCOp.delref :: ops) = rcDels ops + 1 := by
  unfold rcDels
  rw [List.count_cons_self]

/-- Core induction: starting from a not-yet-destroyed state with positive
count `k`, a sequence whose every proper prefix keeps the running count
positive and whose releases total `k` plus its acquisitions destructs the
root exactly once, at the very last step, and decrements `live` once. -/
theorem rcRun_balanced (ops : List RCOp) : ∀ (s : RCState) (k : Int),
    s.refcnt = k → 1 ≤ k → s.destroyed = false →
    (∀ n < ops.length, (rcDels (ops.take n) : Int) < k + rcAdds (ops.take n)) →
    (rcDels ops : Int) = k + rcAdds ops →
    (rcRun s ops).destructions = s.destructions + 1 ∧
    (rcRun s ops).destroyed = true ∧
    (rcRun s ops).live = s.live - 1 ∧
    (rcRun s ops).refcnt = 0 ∧
    ∀ n < ops.length, (rcRun s (ops.take n)).destructions = s.destructions := by
  induction ops with
  | nil =>
      intro s k hk hk1 hd hpre htot
      exfalso
      unfold rcDels rcAdds at htot
      simp only [List.count_nil] at htot
      omega
  | cons op rest ih =>
      intro s k hk hk1 hd hpre htot
      cases op with
      | addref =>
          have hstep : rcStep s RCOp.addref = { s with refcnt := s.refcnt + 1 } := rfl
          have hrun : rcRun s (RCOp.addref :: rest) = rcRun (rcStep s RCOp.addref) rest :=
            rfl
          have hnext := ih (rcStep s RCOp.addref) (k + 1)
            (by rw [hstep]; show s.refcnt + 1 = k + 1; omega) (by omega)
            (by rw [hstep]; exact hd) ?hpre ?htot
          case hpre =>
            intro n hn
            have := hpre (n + 1) (by simpa using Nat.succ_lt_succ hn)
            rw [List.take_succ_cons, rcDels_cons_addref, rcAdds_cons_addref] at this
            push_cast at this ⊢
            omega
          case htot =>
            rw [rcDels_cons_addref, rcAdds_cons_addref] at htot
            push_cast at htot ⊢
            omega
          refine ⟨?_, ?_, ?_, ?_, ?_⟩
          · rw [hrun, hnext.1, hstep]
          · rw [hrun, hnext.2.1]
          · rw [hrun, hnext.2.2.1, hstep]
          · rw [hrun, hnext.2.2.2.1]
          · intro n hn
            cases n with
            | zero => rfl
            | succ m =>
                rw [List.take_succ_cons]
                have : rcRun s (RCOp.addref :: rest.take m) =
                    rcRun (rcStep s RCOp.addref) (rest.take m) := rfl
                rw [this, hnext.2.2.2.2 m (by simpa using Nat.succ_lt_succ_iff.mp hn)]
                rw [hstep]
      | delref =>
          by_cases hone : k = 1
          · -- the count drops to zero: destruction happens now, and the
            -- prefix condition forces the sequence to end here
            subst hone
            have hrest : rest = [] := by
              by_contra hne
              have hlen : 1 < (RCOp.delref :: rest).length := by
                cases rest with
                | nil => exact absurd rfl hne
                | cons b bs => simp
              have := hpre 1 hlen
              rw [show (RCOp.delref :: rest).take 1 = [RCOp.delref] from rfl] at this
              unfold rcDels rcAdds at this
              simp [List.count_cons, List.count_nil] at this
            subst hrest
            have hstep : rcStep s RCOp.delref =
                { refcnt := 0, destroyed := true,
                  destructions := s.destructions + 1, live := s.live - 1 } := by
              unfold rcStep
              rw [if_pos (by omega)]
            refine ⟨?_, ?_, ?_, ?_, ?_⟩
            · show (rcStep s RCOp.delref).destructions = s.destructions + 1
              rw [hstep]
            · show (rcStep s RCOp.delref).destroyed = true
              rw [hstep]
            · show (rcStep s RCOp.delref).live = s.live - 1
              rw [hstep]
            · show (rcStep s RCOp.delref).refcnt = 0
              rw [hstep]
            · intro n hn
              have hn0 : n = 0 := by simpa using Nat.lt_one_iff.mp (by simpa using hn)
              subst hn0
              rfl
          · -- the count stays positive; recurse with k - 1
            have hk2 : 2 ≤ k := by
              rcases lt_or_eq_of_le hk1 with h | h
              · omega
              · exact absurd h.symm hone
            have hstep : rcStep s RCOp.delref = { s with refcnt := s.refcnt - 1 } := by
              unfold rcStep
              rw [if_neg (by omega)]
            have hrun : rcRun s (RCOp.delref :: rest) = rcRun (rcStep s RCOp.delref) rest :=
              rfl
            have hnext := ih (rcStep s RCOp.delref) (k - 1)
              (by rw [hstep]; show s.refcnt - 1 = k - 1; omega) (by omega)
              (by rw [hstep]; exact hd) ?hpre2 ?htot2
            case hpre2 =>
              intro n hn
              have := hpre (n + 1) (by simpa using Nat.succ_lt_succ hn)
              rw [List.take_succ_cons, rcDels_cons_delref, rcAdds_cons_delref] at this
              push_cast at this ⊢
              omega
            case htot2 =>
              rw [rcDels_cons_delref, rcAdds_cons_delref] at htot
              push_cast at htot ⊢
              omega
            refine ⟨?_, ?_, ?_, ?_, ?_⟩
            · rw [hrun, hnext.1, hstep]
            · rw [hrun, hnext.2.1]
            · rw [hrun, hnext.2.2.1, hstep]
            · rw [hrun, hnext.2.2.2.1]
            · intro n hn
              cases n with
              | zero => rfl
              | succ m =>
                  rw [List.take_succ_cons]
                  have heq : rcRun s (RCOp.delref :: rest.take m) =
                      rcRun (rcStep s RCOp.delref) (rest.take m) := rfl
                  rw [heq, hnext.2.2.2.2 m (by simpa using Nat.succ_lt_succ_iff.mp hn),
                    hstep]

/-- C3: starting from a root created with reference count 1, any balanced
sequence of `w_root_addref` / `w_root_delref_raw` calls (each proper prefix
keeps the count positive; the releases total one more than the
acquisitions) destructs the root exactly once — at the final release, the
one that drops the count to zero, and at no earlier release — and that
destruction decrements the process-wide `live_roots` counter by exactly
one. -/
theorem refcount_conservation (ops : List RCOp) (l : Int)
    (hpre : ∀ n < ops.length,
      (rcDels (ops.take n) : Int) < 1 + rcAdds (ops.take n))
    (htot : (rcDels ops : Int) = 1 + rcAdds ops) :
    (rcRun ⟨1, false, 0, l⟩ ops).destructions = 1 ∧
    (rcRun ⟨1, false, 0, l⟩ ops).destroyed = true ∧
    (rcRun ⟨1, false, 0, l⟩ ops).live = l - 1 ∧
    (rcRun ⟨1, false, 0, l⟩ ops).refcnt = 0 ∧
    ∀ n < ops.length, (rcRun ⟨1, false, 0, l⟩ (ops.take n)).destructions = 0 := by
  have h := rcRun_balanced ops ⟨1, false, 0, l⟩ 1 rfl (le_refl 1) rfl hpre htot
  exact ⟨h.1, h.2.1, h.2.2.1, h.2.2.2.1, h.2.2.2.2⟩

/-- Witness for C3 on the sequence addref, delref, delref from count 1:
destruction happens exactly once, at the last release. -/
theorem refcount_conservation_witness :
    (rcRun ⟨1, false, 0, 5⟩ [RCOp.addref, RCOp.delref, RCOp.delref]).destructions
        = 1 ∧
    (rcRun ⟨1, false, 0, 5⟩ [RCOp.addref, RCOp.delref, RCOp.delref]).destroyed
        = true ∧
    (rcRun ⟨1, false, 0, 5⟩ [RCOp.addref, RCOp.delref, RCOp.delref]).live = 5 - 1 ∧
    (rcRun ⟨1, false, 0, 5⟩ [RCOp.addref, RCOp.delref, RCOp.delref]).refcnt = 0 ∧
    ∀ n < ([RCOp.addref, RCOp.delref, RCOp.delref] : List RCOp).length,
      (rcRun ⟨1, false, 0, 5⟩
        (([RCOp.addref, RCOp.delref, RCOp.delref] : List RCOp).take n)).destructions
          = 0 :=
  refcount_conservation [RCOp.addref, RCOp.delref, RCOp.delref] 5
    (by decide) (by decide)

/-! ## C7: the shutdown poll loop of `w_root_free_watched_roots`
(`src/root/watchlist.cpp:249-289`) -/

/-- The sleep interval before the `(k+1)`-th poll: `interval` starts at 100
microseconds and is doubled after each sleep, capped at 1000000
(`src/root/watchlist.cpp:270,284-285`). -/
def backoff_interval (k : Nat) : Nat := min (100 * 2 ^ k) 1000000

/-- Microseconds slept before the `k`-th check of the loop condition. -/
def elapsed_micros : Nat → Nat
  | 0 => 0
  | k + 1 => elapsed_micros k + backoff_interval k

/-- The poll loop, `live` giving the value `live_roots.load()` reads at the
`k`-th iteration: exit with `(k, false)` when the count is zero, with
`(k, true)` when more than 3 seconds have elapsed since polling began
(`time(NULL) > started + 3`, the timeout path that logs the residual
count); otherwise sleep and continue.  `fuel` bounds the iterations the
model unrolls; `none` means the fuel ran out with the loop still going. -/
def pollLoopAux (live : Nat → Int) : Nat → Nat → Option (Nat × Bool)
  | fuel, k =>
    if live k = 0 then some (k, false)
    else if 3 < elapsed_micros k / 1000000 then some (k, true)
    else
      match fuel with
      | 0 => none
      | fuel' + 1 => pollLoopAux live fuel' (k + 1)

theorem backoff_interval_zero : backoff_interval 0 = 100 := rfl

theorem backoff_interval_succ (k : Nat) :
    backoff_interval (k + 1) = min (backoff_interval k * 2) 1000000 := by
  unfold backoff_interval
  rw [pow_succ]
  omega

theorem elapsed_micros_mono {a b : Nat} (h : a ≤ b) :
    elapsed_micros a ≤ elapsed_micros b := by
  induction h with
  | refl => exact le_refl _
  | step _ ih => exact le_trans ih (Nat.le_add_right _ _)

theorem elapsed_micros_17 : elapsed_micros 17 = 4638300 := by decide

theorem elapsed_micros_ge_17 (k : Nat) (h : 17 ≤ k) :
    3 < elapsed_micros k / 1000000 := by
  have h1 : (4638300 : Nat) ≤ elapsed_micros k := by
    rw [← elapsed_micros_17]
    exact elapsed_micros_mono h
  have h2 : 4638300 / 1000000 ≤ elapsed_micros k / 1000000 :=
    Nat.div_le_div_right h1
  omega

/-- The loop exits within 18 iterations, whatever the live counts are. -/
theorem pollLoopAux_total (live : Nat → Int) :
    ∀ fuel k, 18 ≤ fuel + k → (pollLoopAux live fuel k).isSome = true := by
  intro fuel
  induction fuel with
  | zero =>
      intro k hk
      unfold pollLoopAux
      by_cases h0 : live k = 0
      · rw [if_pos h0]
        rfl
      · rw [if_neg h0, if_pos (elapsed_micros_ge_17 k (by omega))]
        rfl
  | succ fuel ih =>
      intro k hk
      unfold pollLoopAux
      by_cases h0 : live k = 0
      · rw [if_pos h0]
        rfl
      · rw [if_neg h0]
        by_cases h3 : 3 < elapsed_micros k / 1000000
        · rw [if_pos h3]
          rfl
        · rw [if_neg h3]
          exact ih (k + 1) (by omega)

/-- Exit characterization: a result describes the first iteration at which
an exit condition held, with the flag telling which condition it was. -/
theorem pollLoopAux_sound (live : Nat → Int) :
    ∀ fuel k0 k b, pollLoopAux live fuel k0 = some (k, b) →
      k0 ≤ k ∧
      (b = false → live k = 0) ∧
      (b = true → live k ≠ 0 ∧ 3 < elapsed_micros k / 1000000) ∧
      (∀ j, k0 ≤ j → j < k → live j ≠ 0 ∧ elapsed_micros j / 1000000 ≤ 3) := by
  intro fuel
  induction fuel with
  | zero =>
      intro k0 k b h
      unfold pollLoopAux at h
      by_cases h0 : live k0 = 0
      · rw [if_pos h0] at h
        obtain ⟨rfl, rfl⟩ : k0 = k ∧ false = b := by
          cases h
          exact ⟨rfl, rfl⟩
        exact ⟨le_refl _, fun _ => h0, fun hb => Bool.noConfusion hb,
          fun j hj1 hj2 => absurd (lt_of_le_of_lt hj1 hj2) (lt_irrefl _)⟩
      · rw [if_neg h0] at h
        by_cases h3 : 3 < elapsed_micros k0 / 1000000
        · rw [if_pos h3] at h
          obtain ⟨rfl, rfl⟩ : k0 = k ∧ true = b := by
            cases h
            exact ⟨rfl, rfl⟩
          exact ⟨le_refl _, fun hb => Bool.noConfusion hb, fun _ => ⟨h0, h3⟩,
            fun j hj1 hj2 => absurd (lt_of_le_of_lt hj1 hj2) (lt_irrefl _)⟩
        · rw [if_neg h3] at h
          cases h
  | succ fuel ih =>
      intro k0 k b h
      unfold pollLoopAux at h
      by_cases h0 : live k0 = 0
      · rw [if_pos h0] at h
        obtain ⟨rfl, rfl⟩ : k0 = k ∧ false = b := by
          cases h
          exact ⟨rfl, rfl⟩
        exact ⟨le_refl _, fun _ => h0, fun hb => Bool.noConfusion hb,
          fun j hj1 hj2 => absurd (lt_of_le_of_lt hj1 hj2) (lt_irrefl _)⟩
      · rw [if_neg h0] at h
        by_cases h3 : 3 < elapsed_micros k0 / 1000000
        · rw [if_pos h3] at h
          obtain ⟨rfl, rfl⟩ : k0 = k ∧ true = b := by
            cases h
            exact ⟨rfl, rfl⟩
          exact ⟨le_refl _, fun hb => Bool.noConfusion hb, fun _ => ⟨h0, h3⟩,
            fun j hj1 hj2 => absurd (lt_of_le_of_lt hj1 hj2) (lt_irrefl _)⟩
        · rw [if_neg h3] at h
          obtain ⟨h1, h2, h4, h5⟩ := ih (k0 + 1) k b h
          refine ⟨by omega, h2, h4, fun j hj1 hj2 => ?_⟩
          rcases Nat.eq_or_lt_of_le hj1 with rfl | hlt
          · exact ⟨h0, by omega⟩
          · exact h5 j hlt hj2

/-- C7: the shutdown poll loop of `w_root_free_watched_roots` terminates even
when `live_roots` never reaches zero: within 18 polls it exits, either
because the count was zero or because more than 3 seconds of sleep had
accumulated (the timeout path, flag `true`, on which the residual count is
logged); it exits at the first poll at which either condition holds; and
the sleep intervals follow exponential backoff from 100 microseconds,
doubling and capped at 1 second. -/
theorem free_watched_roots_poll_terminates (live : Nat → Int) :
    (∃ k b, pollLoopAux live 18 0 = some (k, b) ∧ k ≤ 17 ∧
      (b = false → live k = 0) ∧
      (b = true → live k ≠ 0 ∧ 3 < elapsed_micros k / 1000000) ∧
      (∀ j, j < k → live j ≠ 0 ∧ elapsed_micros j / 1000000 ≤ 3)) ∧
    backoff_interval 0 = 100 ∧
    (∀ k, backoff_interval (k + 1) = min (backoff_interval k * 2) 1000000) := by
  refine ⟨?_, backoff_interval_zero, backoff_interval_succ⟩
  have htot := pollLoopAux_total live 18 0 (by omega)
  cases hpl : pollLoopAux live 18 0 with
  | none =>
      rw [hpl] at htot
      exact absurd htot (by decide)
  | some r =>
      obtain ⟨k, b⟩ := r
      obtain ⟨h1, h2, h3, h4⟩ := pollLoopAux_sound live 18 0 k b hpl
      refine ⟨k, b, rfl, ?_, h2, h3, fun j hj => h4 j (Nat.zero_le j) hj⟩
      by_contra hk
      push_neg at hk
      have h17 := h4 17 (Nat.zero_le _) (by omega)
      have := elapsed_micros_ge_17 17 (le_refl _)
      omega

/-- Witness for C7 with a live count that is stuck at 1: the loop still
exits, on the timeout path. -/
theorem free_watched_roots_poll_terminates_witness :
    (∃ k b, pollLoopAux (fun _ => 1) 18 0 = some (k, b) ∧ k ≤ 17 ∧
      (b = false → (1 : Int) = 0) ∧
      (b = true → (1 : Int) ≠ 0 ∧ 3 < elapsed_micros k / 1000000) ∧
      (∀ j, j < k → (1 : Int) ≠ 0 ∧ elapsed_micros j / 1000000 ≤ 3)) ∧
    backoff_interval 0 = 100 ∧
    (∀ k, backoff_interval (k + 1) = min (backoff_interval k * 2) 1000000) :=
  free_watched_roots_poll_terminates (fun _ => 1)

/-! ## C8 and C9: `apply_ignore_configuration` (`src/root/init.cpp:46-73`) -/

/-- The root state relevant to ignore configuration: its path, its parsed
`.watchmanconfig` object if any, and the recursive-ignore set. -/
structure RootCfg where
  root_path : WStr
  config_file : Option Json
  ignore_dirs : List WStr

/-- Modelled from the spec: `cfg_get_json` (not under `src/`) reads a key of
the root's config object. -/
def cfg_get_json (root : RootCfg) (key : WStr) : Option Json :=
  match root.config_file with
  | none => none
  | some cfg => json_object_get cfg key

/-- Modelled from the spec: `w_string::pathCat` (not under `src/`) resolves a
name relative to the root by joining with a path separator. -/
def pathCat (a b : WStr) : WStr := a ++ '/' :: b

/-- Modelled from the spec: `w_ignore_addstr` (not under `src/`) adds a full
path to the root's recursive-ignore set. -/
def w_ignore_addstr (root : RootCfg) (fullname : WStr) : RootCfg :=
  { root with ignore_dirs := root.ignore_dirs ++ [fullname] }

/-- The body of one iteration of the `ignore_dirs` loop
(`src/root/init.cpp:60-72`): a non-string entry is a logged error and the
loop continues; a string entry is resolved against the root path and added
to the recursive-ignore set. -/
def ignore_loop_body (root : RootCfg) (jignore : Json) : RootCfg :=
  match jignore with
  | Json.str s => w_ignore_addstr root (pathCat root.root_path s)
  | _ => root

/-- The `for (i = 0; i < json_array_size(ignores); i++)` loop of
`apply_ignore_configuration` with its `uint8_t i` counter
(`src/root/init.cpp:48,60`): the increment wraps modulo 256.  `fuel` bounds
how many iterations the model unrolls; `none` means the fuel ran out with
the loop still running. -/
def ignore_loop (ignores : List Json) : Nat → Nat → RootCfg → Option RootCfg
  | fuel, i, root =>
    if i < ignores.length then
      match fuel with
      | 0 => none
      | fuel' + 1 =>
          ignore_loop ignores fuel' ((i + 1) % 256)
            (ignore_loop_body root (ignores.getD i Json.null))
    else some root

/-- `apply_ignore_configuration` (`src/root/init.cpp:46-73`): nothing to do
without an `ignore_dirs` key; a non-array value is a logged error aborting
only this step; otherwise run the loop. -/
def apply_ignore_configuration (fuel : Nat) (root : RootCfg) : Option RootCfg :=
  match cfg_get_json root (wstr "ignore_dirs") with
  | none => some root
  | some (Json.arr xs) => ignore_loop xs fuel 0 root
  | some _ => some root

/-- Small-array case: with the index below 256 the wrap never bites, and the
loop is a plain left fold over the remaining entries. -/
theorem ignore_loop_small (xs : List Json) (hlen : xs.length ≤ 255) :
    ∀ fuel i root, i ≤ xs.length → xs.length - i ≤ fuel →
      ignore_loop xs fuel i root =
        some ((xs.drop i).foldl ignore_loop_body root) := by
  intro fuel
  induction fuel with
  | zero =>
      intro i root hi hfuel
      have hie : i = xs.length := by omega
      unfold ignore_loop
      rw [if_neg (by omega), hie, List.drop_length]
      rfl
  | succ fuel ih =>
      intro i root hi hfuel
      by_cases hlt : i < xs.length
      · unfold ignore_loop
        rw [if_pos hlt]
        have hmod : (i + 1) % 256 = i + 1 := Nat.mod_eq_of_lt (by omega)
        show ignore_loop xs fuel ((i + 1) % 256)
            (ignore_loop_body root (xs.getD i Json.null)) =
          some ((xs.drop i).foldl ignore_loop_body root)
        rw [hmod, ih (i + 1) _ (by omega) (by omega)]
        have hdrop : xs.drop i = xs.getD i Json.null :: xs.drop (i + 1) := by
          rw [List.getD_eq_getElem xs Json.null hlt]
          exact List.drop_eq_getElem_cons hlt
        rw [hdrop, List.foldl_cons]
      · have hie : i = xs.length := by omega
        unfold ignore_loop
        rw [if_neg (by omega), hie, List.drop_length]
        rfl

/-- Large-array case: once the array has 256 or more entries, the 8-bit
counter always stays below the length, so the loop never exits. -/
theorem ignore_loop_wraps (xs : List Json) (hlen : 256 ≤ xs.length) :
    ∀ fuel i root, i < 256 → ignore_loop xs fuel i root = none := by
  intro fuel
  induction fuel with
  | zero =>
      intro i root hi
      unfold ignore_loop
      rw [if_pos (by omega)]
  | succ fuel ih =>
      intro i root hi
      unfold ignore_loop
      rw [if_pos (by omega)]
      exact ih ((i + 1) % 256) _ (Nat.mod_lt _ (by omega))

/-- A root whose config object carries `ignore_dirs` as the given value. -/
def c9_root (ign : Json) : RootCfg :=
  { root_path := wstr "/r",
    config_file := some (Json.obj [(wstr "ignore_dirs", ign)]),
    ignore_dirs := [] }

/-- C9: the `ignore_dirs` loop of `apply_ignore_configuration` uses an 8-bit
counter: on any array of at most 255 entries it terminates after folding
the loop body over each entry exactly once, but on any array of 256 or more
entries the counter wraps before reaching the length and the loop — hence
the enclosing `w_root_new` call — never terminates (no amount of fuel makes
the model return). -/
theorem apply_ignore_uint8_wrap :
    (∀ (root : RootCfg) (xs : List Json) (fuel : Nat),
        cfg_get_json root (wstr "ignore_dirs") = some (Json.arr xs) →
        xs.length ≤ 255 → xs.length ≤ fuel →
        apply_ignore_configuration fuel root =
          some (xs.foldl ignore_loop_body root)) ∧
    (∀ (root : RootCfg) (xs : List Json) (fuel : Nat),
        cfg_get_json root (wstr "ignore_dirs") = some (Json.arr xs) →
        256 ≤ xs.length →
        apply_ignore_configuration fuel root = none) := by
  constructor
  · intro root xs fuel hcfg hlen hfuel
    unfold apply_ignore_configuration
    rw [hcfg]
    show ignore_loop xs fuel 0 root = some (xs.foldl ignore_loop_body root)
    rw [ignore_loop_small xs hlen fuel 0 root (Nat.zero_le _) (by omega),
      List.drop_zero]
  · intro root xs fuel hcfg hlen
    unfold apply_ignore_configuration
    rw [hcfg]
    show ignore_loop xs fuel 0 root = none
    exact ignore_loop_wraps xs hlen fuel 0 root (by omega)

/-- Witness for C9: one string entry is added once; a 256-entry array makes
the loop spin forever. -/
theorem apply_ignore_uint8_wrap_witness :
    apply_ignore_configuration 1 (c9_root (Json.arr [Json.str (wstr "a")])) =
      some ([Json.str (wstr "a")].foldl ignore_loop_body
        (c9_root (Json.arr [Json.str (wstr "a")]))) ∧
    apply_ignore_configuration 1000
        (c9_root (Json.arr (List.replicate 256 (Json.str (wstr "a"))))) = none := by
  constructor
  · exact apply_ignore_uint8_wrap.1 (c9_root (Json.arr [Json.str (wstr "a")]))
      [Json.str (wstr "a")] 1 rfl (by decide) (by decide)
  · exact apply_ignore_uint8_wrap.2
      (c9_root (Json.arr (List.replicate 256 (Json.str (wstr "a")))))
      (List.replicate 256 (Json.str (wstr "a"))) 1000 rfl
      (by rw [List.length_replicate])

/-- C8 (the code contradicts the claim): on the failing input — an
`ignore_dirs` array of 256 string entries — `apply_ignore_configuration`
never returns, whatever fuel the model grants its loop, so no entry set is
ever produced and `w_root_new` cannot proceed to construct the root. -/
theorem apply_ignore_256_entries_never_returns (fuel : Nat) :
    apply_ignore_configuration fuel
      (c9_root (Json.arr (List.replicate 256 (Json.str (wstr "a"))))) = none := by
  unfold apply_ignore_configuration
  show ignore_loop (List.replicate 256 (Json.str (wstr "a"))) fuel 0
      (c9_root (Json.arr (List.replicate 256 (Json.str (wstr "a"))))) = none
  exact ignore_loop_wraps (List.replicate 256 (Json.str (wstr "a")))
    (by rw [List.length_replicate]) fuel 0 _ (by omega)

/-! ## C10: teardown ordering (`src/root/init.cpp:136-162,186-201`) -/

/-- The observable events of cancellation teardown and final destruction. -/
inductive TeardownEv where
  | cancelSubscriptions : TeardownEv
  | drainPendingPrimary : TeardownEv
  | destroyRootDir : TeardownEv
  | watcherRootDtor : TeardownEv
  | destroySymlinkTargetsStorage : TeardownEv
  | reinitInner : TeardownEv
  | destroyLock : TeardownEv
  | decrefConfig : TeardownEv
  | destroyPrimaryStorage : TeardownEv
  | decLiveRoots : TeardownEv
deriving DecidableEq

/-- `w_root_teardown` (`src/root/init.cpp:136-154`): drain the primary
pending queue, destroy the view's root directory tree, invoke the watcher
backend's destructor hook when one is attached, then destruct `Inner` in
place — which destroys the symlink-target queue's storage
(`src/root/init.cpp:160-162`) — and placement-new it back. -/
def w_root_teardown (hasWatcherOps : Bool) : List TeardownEv :=
  [TeardownEv.drainPendingPrimary, TeardownEv.destroyRootDir] ++
    (if hasWatcherOps then [TeardownEv.watcherRootDtor] else []) ++
    [TeardownEv.destroySymlinkTargetsStorage, TeardownEv.reinitInner]

/-- `watchman_root::~watchman_root` (`src/root/init.cpp:186-201`): cancel
subscriptions, run teardown, destroy the lock, release the config object if
any, destroy the primary pending queue's storage, decrement `live_roots`. -/
def watchman_root_dtor_trace (hasWatcherOps hasConfig : Bool) : List TeardownEv :=
  TeardownEv.cancelSubscriptions :: w_root_teardown hasWatcherOps ++
    ([TeardownEv.destroyLock] ++
      (if hasConfig then [TeardownEv.decrefConfig] else []) ++
      [TeardownEv.destroyPrimaryStorage, TeardownEv.decLiveRoots])

/-- C10: in teardown the primary pending queue is drained and the view's
root directory destroyed strictly before the watcher backend's destructor
hook runs, and the hook runs strictly before the storage of either pending
queue is destroyed — the symlink-target queue at the end of teardown, the
primary queue in the final destructor; each of these events happens exactly
once. -/
theorem teardown_ordering (hasConfig : Bool) :
    (List.indexOf TeardownEv.drainPendingPrimary (w_root_teardown true) <
        List.indexOf TeardownEv.watcherRootDtor (w_root_teardown true) ∧
      List.indexOf TeardownEv.destroyRootDir (w_root_teardown true) <
        List.indexOf TeardownEv.watcherRootDtor (w_root_teardown true) ∧
      List.indexOf TeardownEv.watcherRootDtor (w_root_teardown true) <
        List.indexOf TeardownEv.destroySymlinkTargetsStorage (w_root_teardown true)) ∧
    (List.indexOf TeardownEv.drainPendingPrimary
        (watchman_root_dtor_trace true hasConfig) <
        List.indexOf TeardownEv.watcherRootDtor
          (watchman_root_dtor_trace true hasConfig) ∧
      List.indexOf TeardownEv.destroyRootDir (watchman_root_dtor_trace true hasConfig) <
        List.indexOf TeardownEv.watcherRootDtor
          (watchman_root_dtor_trace true hasConfig) ∧
      List.indexOf TeardownEv.watcherRootDtor (watchman_root_dtor_trace true hasConfig) <
        List.indexOf TeardownEv.destroySymlinkTargetsStorage
          (watchman_root_dtor_trace true hasConfig) ∧
      List.indexOf TeardownEv.watcherRootDtor (watchman_root_dtor_trace true hasConfig) <
        List.indexOf TeardownEv.destroyPrimaryStorage
          (watchman_root_dtor_trace true hasConfig)) ∧
    (List.count TeardownEv.drainPendingPrimary (watchman_root_dtor_trace true hasConfig)
        = 1 ∧
      List.count TeardownEv.destroyRootDir (watchman_root_dtor_trace true hasConfig)
        = 1 ∧
      List.count TeardownEv.watcherRootDtor (watchman_root_dtor_trace true hasConfig)
        = 1 ∧
      List.count TeardownEv.destroySymlinkTargetsStorage
        (watchman_root_dtor_trace true hasConfig) = 1 ∧
      List.count TeardownEv.destroyPrimaryStorage
        (watchman_root_dtor_trace true hasConfig) = 1) := by
  cases hasConfig <;> decide
